import Mathlib

/-!
Verification development for the `memo` personal notes manager (Go).

Go strings are modelled as `List Char`; Go's standard-library string
functions (`strings.Split`, `strings.Join`, `strings.Contains`,
`strings.HasPrefix`, `strings.ToLower`, `strings.TrimSpace`,
`strings.Fields`) are given executable models below. `time.Time` is
modelled at seconds granularity in UTC as a six-field calendar record;
the YAML layer (`gopkg.in/yaml.v3`, a third-party dependency whose
source is not part of this repository) is modelled on the line-oriented
subset of YAML that the program's `Metadata` struct produces and
consumes. Effectful time (`time.Now()`) is passed as an explicit
parameter, and file contents are passed as explicit byte strings.
-/

namespace Memo

/-! ## Characters and basic string helpers -/

/-- Whitespace test used by Go's `strings.TrimSpace` and `strings.Fields`
(ASCII subset of `unicode.IsSpace`; the notes in question are ASCII). -/
def isSpaceCh (c : Char) : Bool :=
  c == ' ' || c == '\t' || c == '\n' || c == '\r' || c == '\x0b' || c == '\x0c'

/-- Model of Go `strings.ToLower` (ASCII case mapping, via `Char.toLower`). -/
def toLowerStr (s : List Char) : List Char := s.map Char.toLower

/-- Model of Go `strings.TrimSpace`: drop leading and trailing whitespace. -/
def trimSpace (s : List Char) : List Char :=
  ((s.dropWhile isSpaceCh).reverse.dropWhile isSpaceCh).reverse

/-- Model of Go `strings.Fields`: whitespace-separated words, empty tokens
discarded. The accumulator holds the current word reversed. -/
def fieldsAux : List Char → List Char → List (List Char)
  | [], cur => if cur.isEmpty then [] else [cur.reverse]
  | c :: r, cur =>
      if isSpaceCh c then
        if cur.isEmpty then fieldsAux r [] else cur.reverse :: fieldsAux r []
      else fieldsAux r (c :: cur)

def fields (s : List Char) : List (List Char) := fieldsAux s []

/-! ## Splitting on a substring separator

`splitFirst sep s` finds the first occurrence of `sep` in `s`, returning
the text before and after it. `splitOn` (a model of Go `strings.Split`
for a non-empty separator) repeatedly splits; it is driven by explicit
fuel so that it is structurally recursive and evaluates inside `decide`.
`joinSep` models Go `strings.Join`. -/

def splitFirst (sep : List Char) : List Char → Option (List Char × List Char)
  | [] => if sep.isEmpty then some ([], []) else none
  | c :: rest =>
      if sep.isPrefixOf (c :: rest) then some ([], (c :: rest).drop sep.length)
      else
        match splitFirst sep rest with
        | none => none
        | some (b, a) => some (c :: b, a)

def splitOnF (sep : List Char) : Nat → List Char → List (List Char)
  | 0, s => [s]
  | fuel + 1, s =>
      match splitFirst sep s with
      | none => [s]
      | some (b, a) => b :: splitOnF sep fuel a

/-- Model of Go `strings.Split(s, sep)` for non-empty `sep` (the program
only splits on `"\n---\n"`; Go's special behavior for an empty separator
is not used and not modelled). -/
def splitOn (sep s : List Char) : List (List Char) := splitOnF sep (s.length + 1) s

/-- Model of Go `strings.Join(parts, sep)`. -/
def joinSep (sep : List Char) : List (List Char) → List Char
  | [] => []
  | [x] => x
  | x :: y :: rest => x ++ sep ++ joinSep sep (y :: rest)

/-- Model of Go `strings.Contains(s, sub)`. -/
def containsStr (s sub : List Char) : Bool := (splitFirst sub s).isSome

/-! ## Time

Go's `time.Time` modelled at seconds granularity, UTC. yaml.v3 encodes a
`time.Time` as an RFC 3339 scalar (`YYYY-MM-DDTHH:MM:SSZ` at this
granularity) and decodes such scalars back. -/

structure Time where
  year : Nat
  month : Nat
  day : Nat
  hour : Nat
  minute : Nat
  second : Nat
deriving Repr, DecidableEq

/-- Go's zero `time.Time` is January 1 of year 1, 00:00:00 UTC. -/
def zeroTime : Time := ⟨1, 1, 1, 0, 0, 0⟩

/-- Realistic field ranges; in particular every field fits the fixed
digit width used by the RFC 3339 rendering. -/
def Time.Valid (t : Time) : Prop :=
  1 ≤ t.year ∧ t.year ≤ 9999 ∧ 1 ≤ t.month ∧ t.month ≤ 12 ∧
  1 ≤ t.day ∧ t.day ≤ 31 ∧ t.hour ≤ 23 ∧ t.minute ≤ 59 ∧ t.second ≤ 59

instance (t : Time) : Decidable t.Valid := by unfold Time.Valid; infer_instance

/-- Lexicographic order on calendar fields; models `time.Time` order
(`Before`/`After`) for UTC times. `timeLe a b` is `a ≤ b`. -/
def timeLe (a b : Time) : Bool :=
  if a.year ≠ b.year then a.year < b.year
  else if a.month ≠ b.month then a.month < b.month
  else if a.day ≠ b.day then a.day < b.day
  else if a.hour ≠ b.hour then a.hour < b.hour
  else if a.minute ≠ b.minute then a.minute < b.minute
  else a.second ≤ b.second

/-- Model of Go `t.Before(u)` (strict order). -/
def timeLt (a b : Time) : Bool := timeLe a b && !(a == b)

def digitChar : Nat → Char
  | 0 => '0' | 1 => '1' | 2 => '2' | 3 => '3' | 4 => '4'
  | 5 => '5' | 6 => '6' | 7 => '7' | 8 => '8' | 9 => '9'
  | _ => '*'

def digitVal (c : Char) : Nat := c.toNat - 48

def isDigitCh (c : Char) : Bool := 48 ≤ c.toNat && c.toNat ≤ 57

/-- Two-digit zero-padded rendering (for month/day/hour/minute/second). -/
def pad2 (n : Nat) : List Char := [digitChar (n / 10 % 10), digitChar (n % 10)]

/-- Four-digit zero-padded rendering (for the year). -/
def pad4 (n : Nat) : List Char :=
  [digitChar (n / 1000 % 10), digitChar (n / 100 % 10),
   digitChar (n / 10 % 10), digitChar (n % 10)]

/-- RFC 3339 rendering of a time, as emitted by yaml.v3 for a UTC
`time.Time` with zero nanoseconds. -/
def renderTime (t : Time) : List Char :=
  pad4 t.year ++ '-' :: pad2 t.month ++ '-' :: pad2 t.day ++
  'T' :: pad2 t.hour ++ ':' :: pad2 t.minute ++ ':' :: pad2 t.second ++ ['Z']

def read2 (a b : Char) : Option Nat :=
  if isDigitCh a && isDigitCh b then some (digitVal a * 10 + digitVal b) else none

def read4 (a b c d : Char) : Option Nat :=
  if isDigitCh a && isDigitCh b && isDigitCh c && isDigitCh d then
    some (((digitVal a * 10 + digitVal b) * 10 + digitVal c) * 10 + digitVal d)
  else none

/-- Model of yaml.v3's timestamp recognition, restricted to the
`YYYY-MM-DDTHH:MM:SSZ` shape this program writes; anything else is an
unparsable timestamp. -/
def parseTime : List Char → Option Time
  | [y1, y2, y3, y4, c1, m1, m2, c2, d1, d2, c3,
     h1, h2, c4, n1, n2, c5, s1, s2, c6] =>
      if c1 == '-' && c2 == '-' && c3 == 'T' && c4 == ':' && c5 == ':' && c6 == 'Z' then
        match read4 y1 y2 y3 y4, read2 m1 m2, read2 d1 d2,
              read2 h1 h2, read2 n1 n2, read2 s1 s2 with
        | some y, some mo, some d, some h, some mi, some s =>
            some ⟨y, mo, d, h, mi, s⟩
        | _, _, _, _, _, _ => none
      else none
  | _ => none

/-! ## Decimal integers (`%d` formatting and YAML integer scalars) -/

def natReprAux : Nat → Nat → List Char
  | 0, _ => []
  | f + 1, n => if n == 0 then [] else natReprAux f (n / 10) ++ [digitChar (n % 10)]

/-- Decimal rendering of a natural number, as Go's `%d`. -/
def natRepr (n : Nat) : List Char := if n == 0 then ['0'] else natReprAux (n + 1) n

/-- Decimal rendering of a Go `int`. -/
def intRepr (i : Int) : List Char :=
  if i < 0 then '-' :: natRepr i.natAbs else natRepr i.natAbs

def parseNat (s : List Char) : Option Nat :=
  if s.isEmpty || !(s.all isDigitCh) then none
  else some (s.foldl (fun a c => a * 10 + digitVal c) 0)

/-- Model of yaml.v3's integer scalar decoding, restricted to the plain
decimal integers this program writes. -/
def parseInt (s : List Char) : Option Int :=
  if s.head? == some '-' then (parseNat (s.drop 1)).map (fun n => -(n : Int))
  else (parseNat s).map (fun n => (n : Int))

/-! ## Data model (`internal/note`) -/

/-- The `note.Metadata` struct. yaml struct tags: `title`, `created`,
`modified` plain; `tags`, `author`, `status`, `priority` carry
`omitempty`. -/
structure Metadata where
  title : List Char
  created : Time
  modified : Time
  tags : List (List Char)
  author : List Char
  status : List Char
  priority : Int
deriving Repr, DecidableEq

/-- The `note.Note` struct. -/
structure Note where
  metadata : Metadata
  content : List Char
  filePath : List Char
deriving Repr, DecidableEq

/-- Go's zero value for `note.Metadata`, the starting point of
`yaml.Unmarshal`. -/
def emptyMetadata : Metadata := ⟨[], zeroTime, zeroTime, [], [], [], 0⟩

/-- Model of `note.New(title, content, tags)`; `now` is the sampled
`time.Now()`. -/
def noteNew (title content : List Char) (tags : List (List Char)) (now : Time) : Note :=
  { metadata :=
      { title := title, created := now, modified := now, tags := tags,
        author := [], status := [], priority := 0 },
    content := content, filePath := [] }

/-- Model of `(*Note).SetFilePath`. -/
def setFilePath (n : Note) (path : List Char) : Note := { n with filePath := path }

/-- Model of `(*Note).UpdateContent`; `now` is the sampled `time.Now()`. -/
def updateContent (n : Note) (content : List Char) (now : Time) : Note :=
  { n with content := content, metadata := { n.metadata with modified := now } }

/-- Model of `(*Note).UpdateTags`; `now` is the sampled `time.Now()`. -/
def updateTags (n : Note) (tags : List (List Char)) (now : Time) : Note :=
  { n with metadata := { n.metadata with tags := tags, modified := now } }

/-! ## YAML encoding (model of `yaml.Marshal` on `Metadata`)

On plain scalar values, yaml.v3 marshals the `Metadata` struct as a
block mapping, one `key: value` line per field, tags as a block
sequence indented four spaces, and the `omitempty` fields dropped when
empty or zero. `metaLines` is the list of lines (without newlines);
`yamlMarshal` appends the trailing newline after every line, matching
the marshaller's output. -/

def titleLine (t : List Char) : List Char := ("title: ".toList) ++ t
def createdLine (t : Time) : List Char := ("created: ".toList) ++ renderTime t
def modifiedLine (t : Time) : List Char := ("modified: ".toList) ++ renderTime t
def tagsKeyLine : List Char := "tags:".toList
def itemLead : List Char := "    - ".toList
def itemLine (t : List Char) : List Char := itemLead ++ t
def authorLine (a : List Char) : List Char := ("author: ".toList) ++ a
def statusLine (s : List Char) : List Char := ("status: ".toList) ++ s
def priorityLine (p : Int) : List Char := ("priority: ".toList) ++ intRepr p

def metaLines (md : Metadata) : List (List Char) :=
  titleLine md.title :: createdLine md.created :: modifiedLine md.modified ::
  ((if md.tags.isEmpty then [] else tagsKeyLine :: md.tags.map itemLine) ++
   (if md.author.isEmpty then [] else [authorLine md.author]) ++
   (if md.status.isEmpty then [] else [statusLine md.status]) ++
   (if md.priority == 0 then [] else [priorityLine md.priority]))

def yamlMarshal (md : Metadata) : List Char :=
  (metaLines md).foldr (fun l acc => l ++ '\n' :: acc) []

/-- Model of `(*Note).ToFileContent`: refreshes `modified` to `now`
(the sampled `time.Now()`), marshals the metadata, and produces
`"---\n" + yaml + "---\n\n" + content`. The `yaml.Marshal` error branch
is dead for this struct, so the result is the updated note plus the
serialized text. -/
def toFileContent (now : Time) (n : Note) : Note × List Char :=
  let n' : Note := { n with metadata := { n.metadata with modified := now } }
  (n', ("---\n".toList) ++ yamlMarshal n'.metadata ++ ("---\n\n".toList) ++ n'.content)

/-! ## YAML decoding (model of `yaml.Unmarshal` into `Metadata`)

Restricted to the line-oriented subset that this program's encoder
emits: `key: value` lines with plain scalar values, a `tags:` line
followed by `    - item` lines, blank lines and unknown keys ignored
(yaml.v3 ignores mapping keys with no struct field). A scalar that does
not parse as a timestamp where a `time.Time` is expected, or as an
integer where an `int` is expected, is a decode error, as in yaml.v3.
The `Bool` argument tracks whether we are inside the `tags:` block
sequence. -/

def timeErrMsg : List Char := "cannot decode value as timestamp".toList
def intErrMsg : List Char := "cannot decode value as int".toList

/-- Prefix test (same function as `List.isPrefixOf`, stated so that the
recursion is driven by the pattern argument). -/
def leadsWith : List Char → List Char → Bool
  | [], _ => true
  | _ :: _, [] => false
  | a :: as, b :: bs => a == b && leadsWith as bs

def parseMetaLines : Bool → List (List Char) → Metadata → Except (List Char) Metadata
  | _, [], md => .ok md
  | inTags, l :: rest, md =>
      if inTags && leadsWith itemLead l then
        parseMetaLines true rest { md with tags := md.tags ++ [l.drop 6] }
      else if l.isEmpty then parseMetaLines false rest md
      else if leadsWith ("title: ".toList) l then
        parseMetaLines false rest { md with title := l.drop 7 }
      else if leadsWith ("created: ".toList) l then
        match parseTime (l.drop 9) with
        | some t => parseMetaLines false rest { md with created := t }
        | none => .error timeErrMsg
      else if leadsWith ("modified: ".toList) l then
        match parseTime (l.drop 10) with
        | some t => parseMetaLines false rest { md with modified := t }
        | none => .error timeErrMsg
      else if l == tagsKeyLine then
        parseMetaLines true rest { md with tags := [] }
      else if leadsWith ("author: ".toList) l then
        parseMetaLines false rest { md with author := l.drop 8 }
      else if leadsWith ("status: ".toList) l then
        parseMetaLines false rest { md with status := l.drop 8 }
      else if leadsWith ("priority: ".toList) l then
        match parseInt (l.drop 10) with
        | some i => parseMetaLines false rest { md with priority := i }
        | none => .error intErrMsg
      else parseMetaLines false rest md

def parseMetadata (s : List Char) : Except (List Char) Metadata :=
  parseMetaLines false (splitOn ['\n'] s) emptyMetadata

/-! ## The decoder (`FileStorage.ParseNote`)

File reading is out of scope; the raw file contents arrive as
`contentStr`. The result distinguishes a Go runtime panic (the
`parts[0][4:]` slice is out of range when the first `"\n---\n"`
occurrence starts at index 3, i.e. the input begins `"---\n---\n"`)
from an ordinary error return. -/

inductive ParseErr where
  | notFrontMatter
  | missingDelimiter
  | yamlError (msg : List Char)
deriving Repr, DecidableEq

inductive ParseResult where
  | panic
  | err (e : ParseErr)
  | ok (n : Note)
deriving Repr, DecidableEq

def opener : List Char := "---\n".toList
def delim : List Char := "\n---\n".toList

/-- Remainder of `ParseNote` after the front-matter block and the body
text have been separated: the `parts[0][4:]` slice (a panic when
`parts[0]` is shorter than 4 bytes), the `yaml.Unmarshal` call, and the
construction of the note with the whitespace-trimmed body. -/
def parseBody (filePath p0 body : List Char) : ParseResult :=
  if p0.length < 4 then .panic
  else
    match parseMetadata (p0.drop 4) with
    | .error msg => .err (.yamlError msg)
    | .ok md => .ok { metadata := md, content := trimSpace body, filePath := filePath }

/-- Model of `FileStorage.ParseNote` (and of the identical `parseNote`
in the single-file variant of the program), applied to the contents of
the file at `filePath`: split on every `"\n---\n"` occurrence, take the
first part as the front-matter block, re-join the remaining parts with
the same separator as the body. -/
def parseNote (filePath contentStr : List Char) : ParseResult :=
  if !(opener.isPrefixOf contentStr) then .err .notFrontMatter
  else
    match splitOn delim contentStr with
    | p0 :: p1 :: rest => parseBody filePath p0 (joinSep delim (p1 :: rest))
    | _ => .err .missingDelimiter

/-- Decoder as the specification words it: split the text at the first
occurrence of `"\n---\n"` into metadata block and body, instead of
splitting at every occurrence and re-joining `parts[1:]`. Everything
else (the delimiter checks, the metadata parse, the trimming) is kept
identical so that the comparison isolates the split strategy. -/
def parseNoteSpec (filePath contentStr : List Char) : ParseResult :=
  if !(opener.isPrefixOf contentStr) then .err .notFrontMatter
  else
    match splitFirst delim contentStr with
    | none => .err .missingDelimiter
    | some (bfr, aft) => parseBody filePath bfr aft

/-! ## Query engine

`SearchNotes` and `FilterNotesByTag` first load all notes from disk and
then filter in memory; directory enumeration is out of scope, so the
models take the loaded collection as an argument and model the
filtering loops (which is also exactly the pure query layer the
specification describes). -/

/-- One iteration of the `SearchNotes` loop: the note matches if its
lowered title or content contains the lowered query, or else some
lowered tag does (`continue`/`break` make each note appear at most
once). -/
def noteMatches (queryLower : List Char) (n : Note) : Bool :=
  containsStr (toLowerStr n.metadata.title) queryLower ||
  containsStr (toLowerStr n.content) queryLower ||
  n.metadata.tags.any (fun t => containsStr (toLowerStr t) queryLower)

/-- Model of `FileStorage.SearchNotes` (and `searchNotes`) over the
loaded collection. -/
def searchNotes (notes : List Note) (query : List Char) : List Note :=
  notes.filter (noteMatches (toLowerStr query))

/-- Model of `FileStorage.FilterNotesByTag` (and `filterNotesByTag`)
over the loaded collection: keep notes with some tag equal,
case-insensitively, to the requested tag. -/
def filterNotesByTag (notes : List Note) (tag : List Char) : List Note :=
  notes.filter (fun n => n.metadata.tags.any (fun t => toLowerStr t == toLowerStr tag))

/-! ## Statistics (`ui.DisplayStats`)

Modelled as the list of lines the function prints. Notes on fidelity:
Go prints the average with `%.1f` on a `float64` division; the model
renders the exact rational rounded (half away from zero) to one
decimal, which agrees except possibly on values whose binary
representation falls on the other side of a half-way point. Go's map
iteration order for the tag-usage block is unspecified; the model uses
first-insertion order. Neither choice is load-bearing for any claim. -/

def countTag (m : List (List Char × Nat)) (t : List Char) : List (List Char × Nat) :=
  match m with
  | [] => [(t, 1)]
  | (k, v) :: rest => if k == t then (k, v + 1) :: rest else (k, v) :: countTag rest t

def tagCounts (notes : List Note) : List (List Char × Nat) :=
  notes.foldl (fun m n => n.metadata.tags.foldl countTag m) []

/-- Rendering of `%.1f` for the nonnegative rational `w / n`. -/
def fmt1 (w n : Nat) : List Char :=
  let tenths := (w * 20 + n) / (2 * n)
  natRepr (tenths / 10) ++ '.' :: [digitChar (tenths % 10)]

/-- Date rendering `Format("2006-01-02")`. -/
def renderDate (t : Time) : List Char := pad4 t.year ++ '-' :: pad2 t.month ++ '-' :: pad2 t.day

def oldestNote (h : Note) (rest : List Note) : Note :=
  rest.foldl (fun acc n => if timeLt n.metadata.created acc.metadata.created then n else acc) h

def newestNote (h : Note) (rest : List Note) : Note :=
  rest.foldl (fun acc n => if timeLt acc.metadata.created n.metadata.created then n else acc) h

def totalWords (notes : List Note) : Nat :=
  (notes.map (fun n => (fields n.content).length)).sum

/-- Model of `ui.DisplayStats`: the sequence of lines printed. An empty
collection prints only `"No notes found."` and returns before any
totals, averages, or extrema are computed. -/
def displayStats (notes : List Note) : List (List Char) :=
  match notes with
  | [] => ["No notes found.".toList]
  | h :: rest =>
      let tw := totalWords (h :: rest)
      let oldest := oldestNote h rest
      let newest := newestNote h rest
      let tc := tagCounts (h :: rest)
      ["Note Statistics:".toList,
       ("Total notes: ".toList) ++ natRepr (h :: rest).length,
       ("Total words: ".toList) ++ natRepr tw,
       ("Average words per note: ".toList) ++ fmt1 tw (h :: rest).length,
       ("Oldest note: ".toList) ++ oldest.metadata.title ++ " (".toList ++
         renderDate oldest.metadata.created ++ [')'],
       ("Newest note: ".toList) ++ newest.metadata.title ++ " (".toList ++
         renderDate newest.metadata.created ++ [')']] ++
      (if tc.isEmpty then []
       else ("".toList ++ "Tag usage:".toList) ::
         tc.map (fun p => ("  ".toList) ++ p.1 ++ (": ".toList) ++ natRepr p.2))

/-! ## Plain-scalar side conditions

yaml.v3 emits a Go string as an unquoted plain scalar when it is
non-empty, free of YAML-significant characters, and not mistakable for
another scalar type; on such strings `Unmarshal` returns the scalar
text verbatim. `PlainScalar` is a conservative such class (letters,
digits, `-`, `_` and inner spaces) under which the line-oriented codec
model above coincides with yaml.v3. -/

def plainChar (c : Char) : Bool :=
  c.isAlpha || c.isDigit || c == '-' || c == '_' || c == ' '

def PlainScalar (s : List Char) : Prop :=
  s ≠ [] ∧ (∀ c ∈ s, plainChar c = true) ∧
  s.head? ≠ some ' ' ∧ s.getLast? ≠ some ' ' ∧ s.head? ≠ some '-' ∧
  (∀ c, s.head? = some c → c.isAlpha = true)

instance (s : List Char) : Decidable (PlainScalar s) := by
  unfold PlainScalar; infer_instance

/-- Optional scalar fields (`author`, `status`): empty or plain. -/
def PlainOpt (s : List Char) : Prop := s = [] ∨ PlainScalar s

instance (s : List Char) : Decidable (PlainOpt s) := by
  unfold PlainOpt; infer_instance

/-! ## Concrete example data used by counterexamples and witnesses -/

/-- An example creation time. -/
def exCreated : Time := ⟨2020, 1, 1, 0, 0, 0⟩

/-- An example save time (`time.Now()` at encode). -/
def exNow : Time := ⟨2024, 1, 2, 3, 4, 5⟩

/-- A note whose content carries a trailing newline. -/
def exNoteTrail : Note :=
  { metadata := { title := "t".toList, created := exCreated, modified := exCreated,
                  tags := [], author := [], status := [], priority := 0 },
    content := "x\n".toList, filePath := [] }

/-- What decoding the encoding of `exNoteTrail` actually produces: the
body comes back whitespace-trimmed. -/
def exDecodedTrail : Note :=
  { metadata := { title := "t".toList, created := exCreated, modified := exNow,
                  tags := [], author := [], status := [], priority := 0 },
    content := "x".toList, filePath := [] }

/-- A plain note used to exercise the round trip at a concrete input. -/
def exNoteFull : Note :=
  { metadata := { title := "hello".toList, created := exCreated, modified := exCreated,
                  tags := ["work".toList, "urgent".toList], author := "bob".toList,
                  status := "draft".toList, priority := 2 },
    content := "body text".toList, filePath := [] }

/-- A note with a title and content, used for search examples. -/
def exNoteAlpha : Note :=
  { metadata := { title := "alpha".toList, created := exCreated, modified := exCreated,
                  tags := [], author := [], status := [], priority := 0 },
    content := "hello".toList, filePath := [] }

/-- A note tagged only `workshop`. -/
def exNoteWorkshop : Note :=
  { metadata := { title := "w".toList, created := exCreated, modified := exCreated,
                  tags := ["workshop".toList], author := [], status := [], priority := 0 },
    content := [], filePath := [] }

/-- A note with no tags, used for the tags-omission counterexample. -/
def exNoteNoTags : Note :=
  { metadata := { title := "n".toList, created := exCreated, modified := exCreated,
                  tags := [], author := [], status := [], priority := 0 },
    content := "c".toList, filePath := [] }

/-- File text whose front matter lacks the `created` and `modified`
keys. -/
def exMissingKeysText : List Char := "---\ntitle: x\n---\nbody".toList

/-- The note that decoding `exMissingKeysText` produces: missing keys
silently default to Go zero values. -/
def exMissingKeysNote : Note :=
  { metadata := { title := "x".toList, created := zeroTime, modified := zeroTime,
                  tags := [], author := [], status := [], priority := 0 },
    content := "body".toList, filePath := [] }

/-- File text lacking all three required keys. -/
def exNoRequiredText : List Char := "---\nauthor: bob\n---\nhi".toList

/-- The silently defaulted decode of `exNoRequiredText`. -/
def exNoRequiredNote : Note :=
  { metadata := { title := [], created := zeroTime, modified := zeroTime,
                  tags := [], author := "bob".toList, status := [], priority := 0 },
    content := "hi".toList, filePath := [] }

/-- File text with an unparsable `created` timestamp value. -/
def exBadTimeText : List Char := "---\ncreated: garbage\n---\nbody".toList

/-- File text whose closing `---` is not followed by a newline. -/
def exNoTrailNlText : List Char := "---\ntitle: a\n---".toList

/-- A well-formed file text, used to witness that accepted inputs
contain the full `"\n---\n"` delimiter. -/
def exGoodText : List Char := "---\ntitle: g\n---\nbody".toList

/-- The decode of `exGoodText`. -/
def exGoodNote : Note :=
  { metadata := { title := "g".toList, created := zeroTime, modified := zeroTime,
                  tags := [], author := [], status := [], priority := 0 },
    content := "body".toList, filePath := [] }

/-- File text whose `modified` timestamp precedes its `created`
timestamp. -/
def exBadOrderText : List Char :=
  ("---\ntitle: a\ncreated: 2024-01-01T00:00:00Z\n" ++
   "modified: 2020-01-01T00:00:00Z\n---\nbody").toList

/-- The decode of `exBadOrderText`: `modified < created`. -/
def exBadOrderNote : Note :=
  { metadata := { title := "a".toList, created := ⟨2024, 1, 1, 0, 0, 0⟩,
                  modified := ⟨2020, 1, 1, 0, 0, 0⟩,
                  tags := [], author := [], status := [], priority := 0 },
    content := "body".toList, filePath := [] }

/-! ## Lemmas about `splitFirst`, `splitOn`, `joinSep` -/

theorem containsStr_nil (s : List Char) : containsStr s [] = true := by
  cases s <;> rfl

theorem containsStr_eq_false_iff {s sub : List Char} :
    containsStr s sub = false ↔ splitFirst sub s = none := by
  unfold containsStr
  cases splitFirst sub s <;> simp

theorem splitFirst_some_length {sep : List Char} (hsep : sep ≠ []) :
    ∀ {s b a : List Char}, splitFirst sep s = some (b, a) → a.length < s.length := by
  intro s
  induction s with
  | nil =>
      intro b a h
      simp [splitFirst, List.isEmpty_iff, hsep] at h
  | cons c rest ih =>
      intro b a h
      simp only [splitFirst] at h
      split at h
      · simp only [Option.some.injEq, Prod.mk.injEq] at h
        obtain ⟨_, ha⟩ := h
        subst ha
        have hpos : 0 < sep.length := List.length_pos.mpr hsep
        simp only [List.length_drop, List.length_cons]
        omega
      · split at h
        · exact absurd h (by simp)
        · rename_i b' a' heq
          simp only [Option.some.injEq, Prod.mk.injEq] at h
          obtain ⟨_, ha⟩ := h
          subst ha
          have := ih heq
          simp only [List.length_cons]
          omega

theorem splitFirst_eq_append {sep : List Char} :
    ∀ {s b a : List Char}, splitFirst sep s = some (b, a) → s = b ++ sep ++ a := by
  intro s
  induction s with
  | nil =>
      intro b a h
      simp only [splitFirst] at h
      split at h
      · rename_i hemp
        simp only [Option.some.injEq, Prod.mk.injEq] at h
        obtain ⟨hb, ha⟩ := h
        subst hb; subst ha
        simp [List.isEmpty_iff.mp hemp]
      · exact absurd h (by simp)
  | cons c rest ih =>
      intro b a h
      simp only [splitFirst] at h
      split at h
      · rename_i hpre
        simp only [Option.some.injEq, Prod.mk.injEq] at h
        obtain ⟨hb, ha⟩ := h
        subst hb; subst ha
        obtain ⟨t, ht⟩ := List.isPrefixOf_iff_prefix.mp hpre
        conv_lhs => rw [← ht]
        simp [← ht, List.drop_left]
      · split at h
        · exact absurd h (by simp)
        · rename_i b' a' heq
          simp only [Option.some.injEq, Prod.mk.injEq] at h
          obtain ⟨hb, ha⟩ := h
          subst hb; subst ha
          simpa using ih heq

theorem splitOnF_congr {sep : List Char} (hsep : sep ≠ []) :
    ∀ f₁ f₂ s, s.length < f₁ → s.length < f₂ →
      splitOnF sep f₁ s = splitOnF sep f₂ s := by
  intro f₁
  induction f₁ with
  | zero => intro f₂ s h₁; omega
  | succ f ih =>
      intro f₂ s h₁ h₂
      cases f₂ with
      | zero => omega
      | succ f₂' =>
          simp only [splitOnF]
          cases h : splitFirst sep s with
          | none => rfl
          | some p =>
              obtain ⟨b, a⟩ := p
              have hlen := splitFirst_some_length hsep h
              exact congrArg _ (ih f₂' a (by omega) (by omega))

theorem splitOn_eq_single {sep s : List Char} (h : splitFirst sep s = none) :
    splitOn sep s = [s] := by
  simp [splitOn, splitOnF, h]

theorem splitOn_cons {sep s b a : List Char} (hsep : sep ≠ [])
    (h : splitFirst sep s = some (b, a)) :
    splitOn sep s = b :: splitOn sep a := by
  unfold splitOn
  conv_lhs => simp only [splitOnF, h]
  have hlen := splitFirst_some_length hsep h
  exact congrArg _ (splitOnF_congr hsep s.length (a.length + 1) a (by omega) (by omega))

theorem splitOn_ne_nil (sep s : List Char) : splitOn sep s ≠ [] := by
  unfold splitOn
  simp only [splitOnF]
  cases splitFirst sep s with
  | none => simp
  | some p => obtain ⟨b, a⟩ := p; simp

theorem joinSep_cons {sep : List Char} (b : List Char) {l : List (List Char)} (hl : l ≠ []) :
    joinSep sep (b :: l) = b ++ sep ++ joinSep sep l := by
  cases l with
  | nil => exact absurd rfl hl
  | cons x xs => rfl

theorem join_splitOn {sep : List Char} (hsep : sep ≠ []) (s : List Char) :
    joinSep sep (splitOn sep s) = s := by
  have H : ∀ n (s : List Char), s.length ≤ n → joinSep sep (splitOn sep s) = s := by
    intro n
    induction n with
    | zero =>
        intro s hs
        have : s = [] := List.length_eq_zero.mp (by omega)
        subst this
        have hnone : splitFirst sep [] = none := by
          simp [splitFirst, List.isEmpty_iff, hsep]
        rw [splitOn_eq_single hnone]
        rfl
    | succ n ihn =>
        intro s hs
        cases h : splitFirst sep s with
        | none => rw [splitOn_eq_single h]; rfl
        | some p =>
            obtain ⟨b, a⟩ := p
            have hlen := splitFirst_some_length hsep h
            rw [splitOn_cons hsep h,
                joinSep_cons b (splitOn_ne_nil sep a),
                ihn a (by omega)]
            exact (splitFirst_eq_append h).symm
  exact H s.length s le_rfl

/-! ## Lemmas about separators that start with a newline -/

theorem splitFirst_cons_ne {tl : List Char} {c : Char} {s : List Char}
    (hc : (('\n' : Char) == c) = false) :
    splitFirst ('\n' :: tl) (c :: s) =
      (splitFirst ('\n' :: tl) s).map (fun p => (c :: p.1, p.2)) := by
  simp only [splitFirst, List.isPrefixOf, hc, Bool.false_and, Bool.false_eq_true, if_false]
  cases splitFirst ('\n' :: tl) s with
  | none => rfl
  | some p => obtain ⟨b, a⟩ := p; rfl

theorem splitFirst_cons_nl {tl s : List Char} (htl : tl.isPrefixOf s = false) :
    splitFirst ('\n' :: tl) ('\n' :: s) =
      (splitFirst ('\n' :: tl) s).map (fun p => ('\n' :: p.1, p.2)) := by
  simp only [splitFirst, List.isPrefixOf, htl, beq_self_eq_true, Bool.true_and,
    Bool.false_eq_true, if_false]
  cases splitFirst ('\n' :: tl) s with
  | none => rfl
  | some p => obtain ⟨b, a⟩ := p; rfl

/-- A newline-free chunk can be peeled off the front: every occurrence
of a separator that starts with `'\n'` lies beyond it. -/
theorem splitFirst_no_nl_append {tl : List Char} :
    ∀ {l : List Char}, '\n' ∉ l → ∀ z,
      splitFirst ('\n' :: tl) (l ++ z) =
        (splitFirst ('\n' :: tl) z).map (fun p => (l ++ p.1, p.2)) := by
  intro l
  induction l with
  | nil =>
      intro _ z
      simp only [List.nil_append]
      cases h : splitFirst ('\n' :: tl) z <;> simp [h]
  | cons c l' ih =>
      intro hl z
      have hc : (('\n' : Char) == c) = false := by
        have : c ≠ '\n' := by
          intro hx; exact hl (by simp [hx])
        exact beq_eq_false_iff_ne.mpr (Ne.symm this)
      rw [List.cons_append, splitFirst_cons_ne hc, ih (by intro hx; exact hl (by simp [hx])) z]
      cases splitFirst ('\n' :: tl) z with
      | none => rfl
      | some p => obtain ⟨b, a⟩ := p; rfl

theorem splitFirst_nl_none {l : List Char} (hl : '\n' ∉ l) :
    splitFirst ['\n'] l = none := by
  have := @splitFirst_no_nl_append [] l hl []
  simpa using this

theorem splitFirst_nl_line {l : List Char} (hl : '\n' ∉ l) (t : List Char) :
    splitFirst ['\n'] (l ++ '\n' :: t) = some (l, t) := by
  rw [splitFirst_no_nl_append hl ('\n' :: t)]
  have hstep : splitFirst ['\n'] ('\n' :: t) = some ([], t) := by
    simp [splitFirst, List.isPrefixOf]
  rw [hstep]
  simp

/-- Splitting the join of newline-free lines on `'\n'` recovers the lines. -/
theorem splitOn_join_lines :
    ∀ lines : List (List Char), lines ≠ [] → (∀ l ∈ lines, '\n' ∉ l) →
      splitOn ['\n'] (joinSep ['\n'] lines) = lines := by
  intro lines
  induction lines with
  | nil => intro h; exact absurd rfl h
  | cons l rest ih =>
      intro _ hnl
      cases rest with
      | nil =>
          rw [show joinSep ['\n'] [l] = l from rfl,
              splitOn_eq_single (splitFirst_nl_none (hnl l (by simp)))]
      | cons l₂ rest' =>
          rw [joinSep_cons l (by simp)]
          have hline : splitFirst ['\n'] (l ++ '\n' :: joinSep ['\n'] (l₂ :: rest')) =
              some (l, joinSep ['\n'] (l₂ :: rest')) := by
            have := splitFirst_nl_line (hnl l (by simp)) (joinSep ['\n'] (l₂ :: rest'))
            simpa using this
          rw [show l ++ ['\n'] ++ joinSep ['\n'] (l₂ :: rest') =
                l ++ '\n' :: joinSep ['\n'] (l₂ :: rest') by simp,
              splitOn_cons (by simp) hline,
              ih (by simp) (by intro x hx; exact hnl x (by simp [hx]))]

/-! ## Locating the front-matter delimiter in encoder output -/

theorem delim_eq : delim = '\n' :: "---\n".toList := rfl

theorem splitFirst_delim_self (y : List Char) :
    splitFirst delim (delim ++ y) = some ([], y) := by
  have hpre : delim.isPrefixOf (delim ++ y) = true :=
    List.isPrefixOf_iff_prefix.mpr (List.prefix_append delim y)
  rw [show delim ++ y = '\n' :: ("---\n".toList ++ y) from rfl]
  simp only [splitFirst]
  rw [show ('\n' :: ("---\n".toList ++ y)) = delim ++ y from rfl, hpre]
  simp [List.drop_left]

/-- The text after a metadata line (more lines, then the closing
delimiter) never starts with `"---\n"`: its first character is either
the head of the next line (not a dash) or a newline. -/
theorem closing_not_dash (l₂ : List Char) (rest : List (List Char)) (y : List Char)
    (h : ∀ c, l₂.head? = some c → c ≠ '-') :
    ("---\n".toList).isPrefixOf (joinSep ['\n'] (l₂ :: rest) ++ delim ++ y) = false := by
  cases l₂ with
  | nil =>
      cases rest with
      | nil => rfl
      | cons r rest' => rfl
  | cons c l₂' =>
      have hc : c ≠ '-' := h c rfl
      have hhead : joinSep ['\n'] ((c :: l₂') :: rest) ++ delim ++ y =
          c :: (joinSep ['\n'] ((c :: l₂') :: rest)).tail ++ delim ++ y := by
        cases rest with
        | nil => rfl
        | cons r rest' => rfl
      rw [hhead]
      simp only [List.cons_append, List.isPrefixOf]
      rw [beq_eq_false_iff_ne.mpr (Ne.symm hc)]
      rfl

theorem splitFirst_delim_no_nl {l : List Char} (hl : '\n' ∉ l) (z : List Char) :
    splitFirst delim (l ++ z) =
      (splitFirst delim z).map (fun p => (l ++ p.1, p.2)) := by
  rw [delim_eq]; exact splitFirst_no_nl_append hl z

theorem splitFirst_delim_cons_nl {s : List Char}
    (htl : ("---\n".toList).isPrefixOf s = false) :
    splitFirst delim ('\n' :: s) =
      (splitFirst delim s).map (fun p => ('\n' :: p.1, p.2)) := by
  rw [delim_eq]; exact splitFirst_cons_nl htl

theorem splitFirst_delim_cons_ne {c : Char} {s : List Char}
    (hc : (('\n' : Char) == c) = false) :
    splitFirst delim (c :: s) =
      (splitFirst delim s).map (fun p => (c :: p.1, p.2)) := by
  rw [delim_eq]; exact splitFirst_cons_ne hc

/-- Metadata lines (newline-free, none starting with a dash) followed by
the closing delimiter: the first `"\n---\n"` occurrence is exactly at
the closing delimiter. -/
theorem splitFirst_delim_joined :
    ∀ lines : List (List Char), lines ≠ [] →
      (∀ l ∈ lines, '\n' ∉ l ∧ ∀ c, l.head? = some c → c ≠ '-') →
      ∀ y, splitFirst delim (joinSep ['\n'] lines ++ delim ++ y) =
        some (joinSep ['\n'] lines, y) := by
  intro lines
  induction lines with
  | nil => intro h; exact absurd rfl h
  | cons l rest ih =>
      intro _ hsafe y
      cases rest with
      | nil =>
          rw [show joinSep ['\n'] [l] = l from rfl, List.append_assoc,
              splitFirst_delim_no_nl (hsafe l (by simp)).1 (delim ++ y),
              splitFirst_delim_self y]
          simp
      | cons l₂ rest' =>
          rw [joinSep_cons l (by simp),
              show l ++ ['\n'] ++ joinSep ['\n'] (l₂ :: rest') ++ delim ++ y =
                l ++ ('\n' :: (joinSep ['\n'] (l₂ :: rest') ++ delim ++ y)) by simp,
              splitFirst_delim_no_nl (hsafe l (by simp)).1,
              splitFirst_delim_cons_nl (closing_not_dash l₂ rest' y
                (fun c hc => (hsafe l₂ (by simp)).2 c hc)),
              ih (by simp) (by intro x hx; exact hsafe x (by simp [hx])) y]
          simp

/-- The full encoder output: opener, metadata lines, closing delimiter,
body. The first `"\n---\n"` occurrence is at the closing delimiter. -/
theorem splitFirst_encode (l₁ : List Char) (rest : List (List Char)) (y : List Char)
    (hsafe : ∀ l ∈ l₁ :: rest, '\n' ∉ l ∧ ∀ c, l.head? = some c → c ≠ '-') :
    splitFirst delim (opener ++ joinSep ['\n'] (l₁ :: rest) ++ delim ++ y) =
      some (opener ++ joinSep ['\n'] (l₁ :: rest), y) := by
  have hB := splitFirst_delim_joined (l₁ :: rest) (by simp) hsafe y
  have hhd : ("---\n".toList).isPrefixOf
      (joinSep ['\n'] (l₁ :: rest) ++ delim ++ y) = false :=
    closing_not_dash l₁ rest y (fun c hc => (hsafe l₁ (by simp)).2 c hc)
  have hdash : (('\n' : Char) == '-') = false := by decide
  rw [show opener ++ joinSep ['\n'] (l₁ :: rest) ++ delim ++ y =
        '-' :: '-' :: '-' :: '\n' :: (joinSep ['\n'] (l₁ :: rest) ++ delim ++ y) by
      simp [opener]]
  rw [splitFirst_delim_cons_ne hdash, splitFirst_delim_cons_ne hdash,
      splitFirst_delim_cons_ne hdash, splitFirst_delim_cons_nl hhd, hB]
  simp [opener]

/-! ## Digits, numbers and timestamps round-trip -/

theorem digitChar_isDigit {d : Nat} (hd : d < 10) : isDigitCh (digitChar d) = true := by
  interval_cases d <;> decide

theorem digitVal_digitChar {d : Nat} (hd : d < 10) : digitVal (digitChar d) = d := by
  interval_cases d <;> decide

theorem digitChar_ne_nl (d : Nat) : digitChar d ≠ '\n' := by
  unfold digitChar
  split <;> decide

theorem isDigitCh_ne {c : Char} (h : isDigitCh c = true) : c ≠ '\n' ∧ c ≠ '-' := by
  constructor <;> · intro hx; subst hx; exact absurd h (by decide)

theorem read2_pad2 {n : Nat} (hn : n < 100) :
    read2 (digitChar (n / 10 % 10)) (digitChar (n % 10)) = some n := by
  unfold read2
  rw [digitChar_isDigit (by omega), digitChar_isDigit (by omega),
      digitVal_digitChar (by omega), digitVal_digitChar (by omega)]
  simp only [Bool.and_self, if_true]
  congr 1
  omega

theorem read4_pad4 {n : Nat} (hn : n < 10000) :
    read4 (digitChar (n / 1000 % 10)) (digitChar (n / 100 % 10))
      (digitChar (n / 10 % 10)) (digitChar (n % 10)) = some n := by
  unfold read4
  rw [digitChar_isDigit (by omega), digitChar_isDigit (by omega),
      digitChar_isDigit (by omega), digitChar_isDigit (by omega),
      digitVal_digitChar (by omega), digitVal_digitChar (by omega),
      digitVal_digitChar (by omega), digitVal_digitChar (by omega)]
  simp only [Bool.and_self, if_true]
  congr 1
  omega

theorem renderTime_explicit (t : Time) :
    renderTime t =
      [digitChar (t.year / 1000 % 10), digitChar (t.year / 100 % 10),
       digitChar (t.year / 10 % 10), digitChar (t.year % 10), '-',
       digitChar (t.month / 10 % 10), digitChar (t.month % 10), '-',
       digitChar (t.day / 10 % 10), digitChar (t.day % 10), 'T',
       digitChar (t.hour / 10 % 10), digitChar (t.hour % 10), ':',
       digitChar (t.minute / 10 % 10), digitChar (t.minute % 10), ':',
       digitChar (t.second / 10 % 10), digitChar (t.second % 10), 'Z'] := rfl

theorem parseTime_shape (y1 y2 y3 y4 m1 m2 d1 d2 h1 h2 n1 n2 s1 s2 : Char) :
    parseTime [y1, y2, y3, y4, '-', m1, m2, '-', d1, d2, 'T',
               h1, h2, ':', n1, n2, ':', s1, s2, 'Z'] =
      match read4 y1 y2 y3 y4, read2 m1 m2, read2 d1 d2,
            read2 h1 h2, read2 n1 n2, read2 s1 s2 with
      | some y, some mo, some d, some h, some mi, some s =>
          some ⟨y, mo, d, h, mi, s⟩
      | _, _, _, _, _, _ => none := rfl

theorem parseTime_renderTime {t : Time} (h : t.Valid) :
    parseTime (renderTime t) = some t := by
  obtain ⟨h1, h2, h3, h4, h5, h6, h7, h8, h9⟩ := h
  rw [renderTime_explicit, parseTime_shape,
      read4_pad4 (by omega), read2_pad2 (by omega), read2_pad2 (by omega),
      read2_pad2 (by omega), read2_pad2 (by omega), read2_pad2 (by omega)]

theorem renderTime_ne_nl {t : Time} : ∀ c ∈ renderTime t, c ≠ '\n' := by
  intro c hc
  rw [renderTime_explicit] at hc
  simp only [List.mem_cons, List.not_mem_nil, or_false] at hc
  rcases hc with h|h|h|h|h|h|h|h|h|h|h|h|h|h|h|h|h|h|h|h <;>
    first
      | (subst h; exact digitChar_ne_nl _)
      | (subst h; decide)

/-! ### Decimal naturals and integers -/

theorem natReprAux_all_digit : ∀ f n, ∀ c ∈ natReprAux f n, isDigitCh c = true := by
  intro f
  induction f with
  | zero => intro n c hc; simp [natReprAux] at hc
  | succ f ih =>
      intro n c hc
      simp only [natReprAux] at hc
      by_cases hn : n == 0
      · simp [hn] at hc
      · simp only [hn, Bool.false_eq_true, if_false, List.mem_append,
          List.mem_singleton] at hc
        rcases hc with h | h
        · exact ih _ c h
        · subst h; exact digitChar_isDigit (by omega)

theorem natReprAux_ne_nil {f n : Nat} (hn : n ≠ 0) (hf : 0 < f) :
    natReprAux f n ≠ [] := by
  cases f with
  | zero => omega
  | succ f =>
      simp only [natReprAux]
      rw [if_neg (by simpa using hn)]
      simp

theorem foldl_natReprAux :
    ∀ f n a, n < f →
      (natReprAux f n).foldl (fun x c => x * 10 + digitVal c) a =
        a * 10 ^ (natReprAux f n).length + n := by
  intro f
  induction f with
  | zero => intro n a h; omega
  | succ f ih =>
      intro n a h
      by_cases hn : n = 0
      · subst hn; simp [natReprAux]
      · have hrw : natReprAux (f + 1) n = natReprAux f (n / 10) ++ [digitChar (n % 10)] := by
          simp only [natReprAux]
          rw [if_neg (by simpa using hn)]
        rw [hrw, List.foldl_append, ih (n / 10) a (by omega)]
        simp only [List.foldl_cons, List.foldl_nil, List.length_append,
          List.length_singleton]
        rw [digitVal_digitChar (by omega), pow_succ]
        have := Nat.div_add_mod n 10
        ring_nf
        omega

theorem parseNat_natRepr (n : Nat) : parseNat (natRepr n) = some n := by
  by_cases hn : n = 0
  · subst hn; rfl
  · have hne := natReprAux_ne_nil hn (show 0 < n + 1 by omega)
    have hall : (natReprAux (n + 1) n).all isDigitCh = true :=
      List.all_eq_true.mpr (fun c hc => natReprAux_all_digit _ _ c hc)
    unfold natRepr
    rw [if_neg (by simpa using hn)]
    unfold parseNat
    rw [if_neg (by simp [hne, hall, List.isEmpty_iff])]
    congr 1
    have := foldl_natReprAux (n + 1) n 0 (by omega)
    simpa using this

theorem natRepr_head_digit (n : Nat) :
    ∀ c, (natRepr n).head? = some c → isDigitCh c = true := by
  intro c hc
  have hmem : c ∈ natRepr n := by
    cases h : natRepr n with
    | nil => simp [h] at hc
    | cons x xs => rw [h] at hc; simp at hc; simp [h, hc]
  by_cases hn : n = 0
  · subst hn; simp [natRepr] at hmem; subst hmem; decide
  · unfold natRepr at hmem
    rw [if_neg (by simpa using hn)] at hmem
    exact natReprAux_all_digit _ _ c hmem

theorem natRepr_all_digit (n : Nat) : ∀ c ∈ natRepr n, isDigitCh c = true := by
  intro c hmem
  by_cases hn : n = 0
  · subst hn; simp [natRepr] at hmem; subst hmem; decide
  · unfold natRepr at hmem
    rw [if_neg (by simpa using hn)] at hmem
    exact natReprAux_all_digit _ _ c hmem

theorem parseInt_intRepr (i : Int) : parseInt (intRepr i) = some i := by
  by_cases hi : i < 0
  · unfold intRepr
    rw [if_pos hi]
    unfold parseInt
    simp only [List.head?_cons, List.drop_one, List.tail_cons, beq_self_eq_true, if_true]
    rw [parseNat_natRepr]
    show some (-((i.natAbs : Nat) : Int)) = some i
    congr 1
    omega
  · unfold intRepr
    rw [if_neg hi]
    unfold parseInt
    rw [if_neg (by
      cases h : (natRepr i.natAbs).head? with
      | none => simp
      | some c =>
          have := natRepr_head_digit i.natAbs c h
          have hne := (isDigitCh_ne this).2
          simp [hne])]
    rw [parseNat_natRepr]
    show some ((i.natAbs : Nat) : Int) = some i
    congr 1
    omega

theorem intRepr_ne_nl {i : Int} : ∀ c ∈ intRepr i, c ≠ '\n' := by
  intro c hc
  unfold intRepr at hc
  by_cases hi : i < 0
  · rw [if_pos hi] at hc
    simp only [List.mem_cons] at hc
    rcases hc with h | h
    · subst h; decide
    · exact (isDigitCh_ne (natRepr_all_digit _ c h)).1
  · rw [if_neg hi] at hc
    exact (isDigitCh_ne (natRepr_all_digit _ c hc)).1

/-! ## Safety of the rendered metadata lines -/

theorem plainChar_ne_nl {c : Char} (h : plainChar c = true) : c ≠ '\n' := by
  intro hx; subst hx; exact absurd h (by decide)

theorem PlainScalar.no_nl {s : List Char} (h : PlainScalar s) : '\n' ∉ s := by
  intro hmem
  exact absurd rfl (plainChar_ne_nl (h.2.1 '\n' hmem))

theorem titleLine_safe {t : List Char} (ht : PlainScalar t) :
    '\n' ∉ titleLine t ∧ ∀ c, (titleLine t).head? = some c → c ≠ '-' := by
  refine ⟨?_, ?_⟩
  · intro hmem
    rcases List.mem_append.mp hmem with h | h
    · exact absurd h (by decide)
    · exact ht.no_nl h
  · intro c hc
    have : 't' = c := by
      simpa [titleLine] using hc
    rw [← this]; decide

theorem createdLine_safe {t : Time} :
    '\n' ∉ createdLine t ∧ ∀ c, (createdLine t).head? = some c → c ≠ '-' := by
  refine ⟨?_, ?_⟩
  · intro hmem
    rcases List.mem_append.mp hmem with h | h
    · exact absurd h (by decide)
    · exact renderTime_ne_nl '\n' h rfl
  · intro c hc
    have : 'c' = c := by
      simpa [createdLine] using hc
    rw [← this]; decide

theorem modifiedLine_safe {t : Time} :
    '\n' ∉ modifiedLine t ∧ ∀ c, (modifiedLine t).head? = some c → c ≠ '-' := by
  refine ⟨?_, ?_⟩
  · intro hmem
    rcases List.mem_append.mp hmem with h | h
    · exact absurd h (by decide)
    · exact renderTime_ne_nl '\n' h rfl
  · intro c hc
    have : 'm' = c := by
      simpa [modifiedLine] using hc
    rw [← this]; decide

theorem itemLine_safe {t : List Char} (ht : PlainScalar t) :
    '\n' ∉ itemLine t ∧ ∀ c, (itemLine t).head? = some c → c ≠ '-' := by
  refine ⟨?_, ?_⟩
  · intro hmem
    rcases List.mem_append.mp hmem with h | h
    · exact absurd h (by decide)
    · exact ht.no_nl h
  · intro c hc
    have : ' ' = c := by
      simpa [itemLine, itemLead] using hc
    rw [← this]; decide

theorem authorLine_safe {a : List Char} (ha : PlainScalar a) :
    '\n' ∉ authorLine a ∧ ∀ c, (authorLine a).head? = some c → c ≠ '-' := by
  refine ⟨?_, ?_⟩
  · intro hmem
    rcases List.mem_append.mp hmem with h | h
    · exact absurd h (by decide)
    · exact ha.no_nl h
  · intro c hc
    have : 'a' = c := by
      simpa [authorLine] using hc
    rw [← this]; decide

theorem statusLine_safe {a : List Char} (ha : PlainScalar a) :
    '\n' ∉ statusLine a ∧ ∀ c, (statusLine a).head? = some c → c ≠ '-' := by
  refine ⟨?_, ?_⟩
  · intro hmem
    rcases List.mem_append.mp hmem with h | h
    · exact absurd h (by decide)
    · exact ha.no_nl h
  · intro c hc
    have : 's' = c := by
      simpa [statusLine] using hc
    rw [← this]; decide

theorem priorityLine_safe {p : Int} :
    '\n' ∉ priorityLine p ∧ ∀ c, (priorityLine p).head? = some c → c ≠ '-' := by
  refine ⟨?_, ?_⟩
  · intro hmem
    rcases List.mem_append.mp hmem with h | h
    · exact absurd h (by decide)
    · exact intRepr_ne_nl '\n' h rfl
  · intro c hc
    have : 'p' = c := by
      simpa [priorityLine] using hc
    rw [← this]; decide

theorem tagsKeyLine_safe :
    '\n' ∉ tagsKeyLine ∧ ∀ c, tagsKeyLine.head? = some c → c ≠ '-' := by
  refine ⟨by decide, ?_⟩
  intro c hc
  have : 't' = c := by
    simpa [tagsKeyLine] using hc
  rw [← this]; decide

theorem metaLines_safe {md : Metadata} (ht : PlainScalar md.title)
    (htags : ∀ t ∈ md.tags, PlainScalar t) (ha : PlainOpt md.author)
    (hs : PlainOpt md.status) :
    ∀ l ∈ metaLines md, '\n' ∉ l ∧ ∀ c, l.head? = some c → c ≠ '-' := by
  intro l hl
  unfold metaLines at hl
  rcases List.mem_cons.mp hl with h | hl
  · subst h; exact titleLine_safe ht
  rcases List.mem_cons.mp hl with h | hl
  · subst h; exact createdLine_safe
  rcases List.mem_cons.mp hl with h | hl
  · subst h; exact modifiedLine_safe
  rcases List.mem_append.mp hl with hl | hl
  · rcases List.mem_append.mp hl with hl | hl
    · rcases List.mem_append.mp hl with hl | hl
      · by_cases htag : md.tags.isEmpty
        · rw [if_pos htag] at hl; simp at hl
        · rw [if_neg htag] at hl
          rcases List.mem_cons.mp hl with h | hl
          · subst h; exact tagsKeyLine_safe
          · obtain ⟨t, hmem, hline⟩ := List.mem_map.mp hl
            subst hline
            exact itemLine_safe (htags t hmem)
      · by_cases hau : md.author.isEmpty
        · rw [if_pos hau] at hl; simp at hl
        · rw [if_neg hau] at hl
          simp only [List.mem_singleton] at hl
          subst hl
          rcases ha with h | h
          · exact absurd (List.isEmpty_iff.mpr h) hau
          · exact authorLine_safe h
    · by_cases hst : md.status.isEmpty
      · rw [if_pos hst] at hl; simp at hl
      · rw [if_neg hst] at hl
        simp only [List.mem_singleton] at hl
        subst hl
        rcases hs with h | h
        · exact absurd (List.isEmpty_iff.mpr h) hst
        · exact statusLine_safe h
  · by_cases hp : md.priority == 0
    · rw [if_pos hp] at hl; simp at hl
    · rw [if_neg hp] at hl
      simp only [List.mem_singleton] at hl
      subst hl
      exact priorityLine_safe

/-! ## Single-step evaluation of the metadata line parser -/

theorem step_title {b : Bool} {t : List Char} {rest : List (List Char)} {md : Metadata} :
    parseMetaLines b (titleLine t :: rest) md =
      parseMetaLines false rest { md with title := t } := by
  cases b <;> rfl

theorem step_created {b : Bool} {v : List Char} {c : Time} {rest : List (List Char)}
    {md : Metadata} (h : parseTime v = some c) :
    parseMetaLines b ((("created: ".toList) ++ v) :: rest) md =
      parseMetaLines false rest { md with created := c } := by
  cases b <;>
  · show (match parseTime v with
      | some t => parseMetaLines false rest { md with created := t }
      | none => Except.error timeErrMsg) = _
    rw [h]

theorem step_modified {b : Bool} {v : List Char} {c : Time} {rest : List (List Char)}
    {md : Metadata} (h : parseTime v = some c) :
    parseMetaLines b ((("modified: ".toList) ++ v) :: rest) md =
      parseMetaLines false rest { md with modified := c } := by
  cases b <;>
  · show (match parseTime v with
      | some t => parseMetaLines false rest { md with modified := t }
      | none => Except.error timeErrMsg) = _
    rw [h]

theorem step_tagsKey {b : Bool} {rest : List (List Char)} {md : Metadata} :
    parseMetaLines b (tagsKeyLine :: rest) md =
      parseMetaLines true rest { md with tags := [] } := by
  cases b <;> rfl

theorem step_item {t : List Char} {rest : List (List Char)} {md : Metadata} :
    parseMetaLines true (itemLine t :: rest) md =
      parseMetaLines true rest { md with tags := md.tags ++ [t] } := rfl

theorem step_author {b : Bool} {a : List Char} {rest : List (List Char)} {md : Metadata} :
    parseMetaLines b (authorLine a :: rest) md =
      parseMetaLines false rest { md with author := a } := by
  cases b <;> rfl

theorem step_status {b : Bool} {a : List Char} {rest : List (List Char)} {md : Metadata} :
    parseMetaLines b (statusLine a :: rest) md =
      parseMetaLines false rest { md with status := a } := by
  cases b <;> rfl

theorem step_priority {b : Bool} {v : List Char} {i : Int} {rest : List (List Char)}
    {md : Metadata} (h : parseInt v = some i) :
    parseMetaLines b ((("priority: ".toList) ++ v) :: rest) md =
      parseMetaLines false rest { md with priority := i } := by
  cases b <;>
  · show (match parseInt v with
      | some x => parseMetaLines false rest { md with priority := x }
      | none => Except.error intErrMsg) = _
    rw [h]

theorem parseMetaLines_items {rest : List (List Char)} :
    ∀ (ts : List (List Char)) (md : Metadata),
      parseMetaLines true (ts.map itemLine ++ rest) md =
        parseMetaLines true rest { md with tags := md.tags ++ ts } := by
  intro ts
  induction ts with
  | nil =>
      intro md
      show parseMetaLines true rest md = _
      rw [show md.tags ++ [] = md.tags from List.append_nil _]
  | cons t ts ih =>
      intro md
      rw [List.map_cons, List.cons_append, step_item, ih]
      rw [show md.tags ++ [t] ++ ts = md.tags ++ t :: ts by simp]

/-- Parsing the rendered metadata lines recovers the metadata record. -/
theorem parseMetaLines_roundtrip (md : Metadata) (ht : PlainScalar md.title)
    (htags : ∀ t ∈ md.tags, PlainScalar t) (ha : PlainOpt md.author)
    (hs : PlainOpt md.status) (hc : md.created.Valid) (hm : md.modified.Valid) :
    parseMetaLines false (metaLines md) emptyMetadata = .ok md := by
  obtain ⟨mt, mc, mm, mtags, mauth, mstat, mprio⟩ := md
  simp only at ht htags ha hs hc hm
  have hafter : ∀ (b : Bool) (t0 : List Char) (c0 m0 : Time) (tg : List (List Char)),
      parseMetaLines b
        ((if mauth.isEmpty then [] else [authorLine mauth]) ++
         ((if mstat.isEmpty then [] else [statusLine mstat]) ++
          (if mprio == 0 then [] else [priorityLine mprio])))
        ⟨t0, c0, m0, tg, [], [], 0⟩ =
        .ok ⟨t0, c0, m0, tg, mauth, mstat, mprio⟩ := by
    intro b t0 c0 m0 tg
    rcases ha with ha | ha
    · subst ha
      simp only [List.isEmpty_nil, if_true, List.nil_append]
      rcases hs with hs | hs
      · subst hs
        simp only [List.isEmpty_nil, if_true, List.nil_append]
        by_cases hp : mprio = 0
        · subst hp
          rw [if_pos (by simp)]
          rfl
        · rw [if_neg (by simpa using hp), show priorityLine mprio =
              ("priority: ".toList) ++ intRepr mprio from rfl,
            step_priority (parseInt_intRepr mprio)]
          rfl
      · rw [if_neg (by simp [List.isEmpty_iff, hs.1]), List.singleton_append,
            step_status]
        by_cases hp : mprio = 0
        · subst hp
          rw [if_pos (by simp)]
          rfl
        · rw [if_neg (by simpa using hp), show priorityLine mprio =
              ("priority: ".toList) ++ intRepr mprio from rfl,
            step_priority (parseInt_intRepr mprio)]
          rfl
    · rw [if_neg (by simp [List.isEmpty_iff, ha.1]), List.singleton_append, step_author]
      rcases hs with hs | hs
      · subst hs
        simp only [List.isEmpty_nil, if_true, List.nil_append]
        by_cases hp : mprio = 0
        · subst hp
          rw [if_pos (by simp)]
          rfl
        · rw [if_neg (by simpa using hp), show priorityLine mprio =
              ("priority: ".toList) ++ intRepr mprio from rfl,
            step_priority (parseInt_intRepr mprio)]
          rfl
      · rw [if_neg (by simp [List.isEmpty_iff, hs.1]), List.singleton_append,
            step_status]
        by_cases hp : mprio = 0
        · subst hp
          rw [if_pos (by simp)]
          rfl
        · rw [if_neg (by simpa using hp), show priorityLine mprio =
              ("priority: ".toList) ++ intRepr mprio from rfl,
            step_priority (parseInt_intRepr mprio)]
          rfl
  unfold metaLines
  simp only [createdLine, modifiedLine]
  rw [show (emptyMetadata : Metadata) = ⟨[], zeroTime, zeroTime, [], [], [], 0⟩ from rfl,
      step_title, step_created (parseTime_renderTime hc),
      step_modified (parseTime_renderTime hm)]
  by_cases htag : mtags = []
  · subst htag
    simp only [List.isEmpty_nil, if_true, List.nil_append, List.append_assoc]
    exact hafter false mt mc mm []
  · rw [if_neg (by simpa [List.isEmpty_iff] using htag)]
    simp only [List.cons_append, List.append_assoc]
    rw [step_tagsKey, parseMetaLines_items]
    have := hafter true mt mc mm ([] ++ mtags)
    rw [this]
    simp

/-! ## Decomposing the encoder output -/

theorem foldr_lines_eq :
    ∀ lines : List (List Char), lines ≠ [] →
      lines.foldr (fun l acc => l ++ '\n' :: acc) [] = joinSep ['\n'] lines ++ ['\n'] := by
  intro lines
  induction lines with
  | nil => intro h; exact absurd rfl h
  | cons l rest ih =>
      intro _
      cases rest with
      | nil => rfl
      | cons l₂ rest' =>
          rw [List.foldr_cons, ih (by simp), joinSep_cons l (by simp)]
          simp

theorem metaLines_ne_nil (md : Metadata) : metaLines md ≠ [] := by
  unfold metaLines
  exact List.cons_ne_nil _ _

theorem encode_decomp (now : Time) (n : Note) :
    (toFileContent now n).2 =
      opener ++
        (joinSep ['\n'] (metaLines { n.metadata with modified := now }) ++
          (delim ++ ('\n' :: n.content))) := by
  show ("---\n".toList) ++ yamlMarshal { n.metadata with modified := now } ++
      ("---\n\n".toList) ++ n.content = _
  unfold yamlMarshal
  rw [foldr_lines_eq _ (metaLines_ne_nil _)]
  simp [opener, delim, List.append_assoc]

theorem trimSpace_cons_nl (s : List Char) : trimSpace ('\n' :: s) = trimSpace s := rfl

/-! ## The round trip `ParseNote ∘ ToFileContent` -/

theorem delim_ne_nil : delim ≠ [] := by decide

theorem parseNote_eq_of_split {fp s p0 p1 : List Char} {prest : List (List Char)}
    (h1 : opener.isPrefixOf s = true)
    (h2 : splitOn delim s = p0 :: p1 :: prest) :
    parseNote fp s = parseBody fp p0 (joinSep delim (p1 :: prest)) := by
  unfold parseNote
  rw [h1, h2]
  rfl

theorem parseNote_eq_of_single {fp s : List Char}
    (h1 : opener.isPrefixOf s = true) (h2 : splitOn delim s = [s]) :
    parseNote fp s = .err .missingDelimiter := by
  unfold parseNote
  rw [h1, h2]
  rfl

theorem parseBody_ok {fp p0 body : List Char} {md : Metadata}
    (hlen : ¬ p0.length < 4) (h : parseMetadata (p0.drop 4) = .ok md) :
    parseBody fp p0 body =
      .ok { metadata := md, content := trimSpace body, filePath := fp } := by
  unfold parseBody
  rw [if_neg hlen, h]

theorem parseNote_toFileContent (fp : List Char) (now : Time) (n : Note)
    (ht : PlainScalar n.metadata.title)
    (htags : ∀ t ∈ n.metadata.tags, PlainScalar t)
    (ha : PlainOpt n.metadata.author) (hs : PlainOpt n.metadata.status)
    (hc : n.metadata.created.Valid) (hnow : now.Valid)
    (hcont : trimSpace n.content = n.content) :
    parseNote fp (toFileContent now n).2 =
      .ok { metadata := { n.metadata with modified := now },
            content := n.content, filePath := fp } := by
  have hsafe : ∀ l ∈ metaLines { n.metadata with modified := now },
      '\n' ∉ l ∧ ∀ c, l.head? = some c → c ≠ '-' :=
    @metaLines_safe { n.metadata with modified := now } ht htags ha hs
  obtain ⟨l₁, rest, hl⟩ : ∃ l₁ rest,
      metaLines { n.metadata with modified := now } = l₁ :: rest := ⟨_, _, rfl⟩
  have hsplit := splitFirst_encode l₁ rest ('\n' :: n.content) (hl ▸ hsafe)
  simp only [List.append_assoc] at hsplit
  obtain ⟨p1, prest, hps⟩ :=
    List.exists_cons_of_ne_nil (splitOn_ne_nil delim ('\n' :: n.content))
  have hsplitOn : splitOn delim
      (opener ++ (joinSep ['\n'] (l₁ :: rest) ++ (delim ++ ('\n' :: n.content)))) =
      (opener ++ joinSep ['\n'] (l₁ :: rest)) :: p1 :: prest := by
    rw [splitOn_cons delim_ne_nil hsplit, hps]
  have hpre : opener.isPrefixOf
      (opener ++ (joinSep ['\n'] (l₁ :: rest) ++ (delim ++ ('\n' :: n.content)))) = true :=
    List.isPrefixOf_iff_prefix.mpr (List.prefix_append _ _)
  rw [encode_decomp now n, hl, parseNote_eq_of_split hpre hsplitOn]
  have hlen : ¬ ((opener ++ joinSep ['\n'] (l₁ :: rest)).length < 4) := by
    simp [opener]
  have hdrop : (opener ++ joinSep ['\n'] (l₁ :: rest)).drop 4 =
      joinSep ['\n'] (l₁ :: rest) := by
    rw [show (4 : Nat) = opener.length from rfl, List.drop_left]
  have hmeta : parseMetadata ((opener ++ joinSep ['\n'] (l₁ :: rest)).drop 4) =
      .ok { n.metadata with modified := now } := by
    rw [hdrop]
    unfold parseMetadata
    rw [← hl, splitOn_join_lines _ (metaLines_ne_nil _) (fun l h => (hsafe l h).1)]
    exact parseMetaLines_roundtrip _ ht htags ha hs hc
      (show ({ n.metadata with modified := now } : Metadata).modified.Valid from hnow)
  rw [parseBody_ok hlen hmeta]
  have hjoin : joinSep delim (p1 :: prest) = '\n' :: n.content := by
    rw [← hps, join_splitOn delim_ne_nil]
  rw [hjoin, trimSpace_cons_nl, hcont]

/-! ## Equivalence of the implemented split with the specified split -/

theorem parseNote_eq_parseNoteSpec (fp s : List Char) :
    parseNote fp s = parseNoteSpec fp s := by
  cases hpre : opener.isPrefixOf s with
  | false =>
      unfold parseNote parseNoteSpec
      rw [hpre]
      rfl
  | true =>
    cases hsp : splitFirst delim s with
    | none =>
        rw [parseNote_eq_of_single hpre (splitOn_eq_single hsp)]
        unfold parseNoteSpec
        rw [hpre, hsp]
        rfl
    | some p =>
        obtain ⟨b, a⟩ := p
        obtain ⟨p1, prest, hps⟩ :=
          List.exists_cons_of_ne_nil (splitOn_ne_nil delim a)
        have hsplitOn : splitOn delim s = b :: p1 :: prest := by
          rw [splitOn_cons delim_ne_nil hsp, hps]
        rw [parseNote_eq_of_split hpre hsplitOn]
        have hjoin : joinSep delim (p1 :: prest) = a := by
          rw [← hps, join_splitOn delim_ne_nil]
        rw [hjoin]
        unfold parseNoteSpec
        rw [hpre, hsp]
        rfl

/-! ## Rejection of inputs without the full delimiter -/

theorem parseNote_no_front_matter {fp s : List Char}
    (h : opener.isPrefixOf s = false) :
    parseNote fp s = .err .notFrontMatter := by
  unfold parseNote
  rw [h]
  rfl

theorem parseNote_no_delim {fp s : List Char}
    (hpre : opener.isPrefixOf s = true) (h : containsStr s delim = false) :
    parseNote fp s = .err .missingDelimiter :=
  parseNote_eq_of_single hpre (splitOn_eq_single (containsStr_eq_false_iff.mp h))

theorem parseNote_ok_contains {fp s : List Char} {n : Note}
    (h : parseNote fp s = .ok n) : containsStr s delim = true := by
  by_contra hc
  have hc' : containsStr s delim = false := by
    cases hb : containsStr s delim
    · rfl
    · exact absurd hb hc
  cases hpre : opener.isPrefixOf s with
  | true =>
      rw [parseNote_no_delim hpre hc'] at h
      exact absurd h (by simp)
  | false =>
      rw [parseNote_no_front_matter hpre] at h
      exact absurd h (by simp)

/-! ## Decode errors never come from missing keys -/

theorem parseBody_error {fp p0 body msg : List Char}
    (hlen : ¬ p0.length < 4) (h : parseMetadata (p0.drop 4) = .error msg) :
    parseBody fp p0 body = .err (.yamlError msg) := by
  unfold parseBody
  rw [if_neg hlen, h]

/-- Decode errors at the metadata layer come only from unparsable typed
scalars (timestamps or the priority integer); a missing key never
produces an error. -/
theorem parseMetaLines_error_classified :
    ∀ (lines : List (List Char)) (b : Bool) (acc : Metadata) (e : List Char),
      parseMetaLines b lines acc = .error e → e = timeErrMsg ∨ e = intErrMsg := by
  intro lines
  induction lines with
  | nil =>
      intro b acc e h
      simp only [parseMetaLines] at h
      exact absurd h (by simp)
  | cons l rest ih =>
      intro b acc e h
      simp only [parseMetaLines] at h
      split at h
      · exact ih _ _ _ h
      · split at h
        · exact ih _ _ _ h
        · split at h
          · exact ih _ _ _ h
          · split at h
            · split at h
              · exact ih _ _ _ h
              · simp only [Except.error.injEq] at h
                exact Or.inl h.symm
            · split at h
              · split at h
                · exact ih _ _ _ h
                · simp only [Except.error.injEq] at h
                  exact Or.inl h.symm
              · split at h
                · exact ih _ _ _ h
                · split at h
                  · exact ih _ _ _ h
                  · split at h
                    · exact ih _ _ _ h
                    · split at h
                      · split at h
                        · exact ih _ _ _ h
                        · simp only [Except.error.injEq] at h
                          exact Or.inr h.symm
                      · exact ih _ _ _ h

/-- When the metadata block has no line for a required key, decoding
leaves that field at the accumulator's value (Go's zero value when
starting from the zero struct): missing keys are silently defaulted. -/
theorem parseMetaLines_absent_preserved :
    ∀ (lines : List (List Char)) (b : Bool) (acc md : Metadata),
      parseMetaLines b lines acc = .ok md →
      ((∀ l ∈ lines, leadsWith ("title: ".toList) l = false) → md.title = acc.title) ∧
      ((∀ l ∈ lines, leadsWith ("created: ".toList) l = false) → md.created = acc.created) ∧
      ((∀ l ∈ lines, leadsWith ("modified: ".toList) l = false) → md.modified = acc.modified) := by
  intro lines
  induction lines with
  | nil =>
      intro b acc md h
      simp only [parseMetaLines, Except.ok.injEq] at h
      subst h
      exact ⟨fun _ => rfl, fun _ => rfl, fun _ => rfl⟩
  | cons l rest ih =>
      intro b acc md h
      have hrestrict : ∀ (p : List Char → Prop), (∀ x ∈ l :: rest, p x) → ∀ x ∈ rest, p x :=
        fun p hp x hx => hp x (List.mem_cons_of_mem l hx)
      simp only [parseMetaLines] at h
      split at h
      · obtain ⟨h1, h2, h3⟩ := ih _ _ _ h
        exact ⟨fun hno => h1 (fun x hx => hno x (List.mem_cons_of_mem l hx)),
               fun hno => h2 (fun x hx => hno x (List.mem_cons_of_mem l hx)),
               fun hno => h3 (fun x hx => hno x (List.mem_cons_of_mem l hx))⟩
      · split at h
        · obtain ⟨h1, h2, h3⟩ := ih _ _ _ h
          exact ⟨fun hno => h1 (fun x hx => hno x (List.mem_cons_of_mem l hx)),
                 fun hno => h2 (fun x hx => hno x (List.mem_cons_of_mem l hx)),
                 fun hno => h3 (fun x hx => hno x (List.mem_cons_of_mem l hx))⟩
        · split at h
          · rename_i htitle
            obtain ⟨h1, h2, h3⟩ := ih _ _ _ h
            refine ⟨fun hno => absurd (hno l (List.mem_cons_self l rest)) (by rw [htitle]; simp),
                    fun hno => h2 (fun x hx => hno x (List.mem_cons_of_mem l hx)),
                    fun hno => h3 (fun x hx => hno x (List.mem_cons_of_mem l hx))⟩
          · split at h
            · rename_i hcreated
              split at h
              · obtain ⟨h1, h2, h3⟩ := ih _ _ _ h
                refine ⟨fun hno => h1 (fun x hx => hno x (List.mem_cons_of_mem l hx)),
                        fun hno => absurd (hno l (List.mem_cons_self l rest)) (by rw [hcreated]; simp),
                        fun hno => h3 (fun x hx => hno x (List.mem_cons_of_mem l hx))⟩
              · exact absurd h (by simp)
            · split at h
              · rename_i hmodified
                split at h
                · obtain ⟨h1, h2, h3⟩ := ih _ _ _ h
                  refine ⟨fun hno => h1 (fun x hx => hno x (List.mem_cons_of_mem l hx)),
                          fun hno => h2 (fun x hx => hno x (List.mem_cons_of_mem l hx)),
                          fun hno => absurd (hno l (List.mem_cons_self l rest)) (by rw [hmodified]; simp)⟩
                · exact absurd h (by simp)
              · split at h
                · obtain ⟨h1, h2, h3⟩ := ih _ _ _ h
                  exact ⟨fun hno => h1 (fun x hx => hno x (List.mem_cons_of_mem l hx)),
                         fun hno => h2 (fun x hx => hno x (List.mem_cons_of_mem l hx)),
                         fun hno => h3 (fun x hx => hno x (List.mem_cons_of_mem l hx))⟩
                · split at h
                  · obtain ⟨h1, h2, h3⟩ := ih _ _ _ h
                    exact ⟨fun hno => h1 (fun x hx => hno x (List.mem_cons_of_mem l hx)),
                           fun hno => h2 (fun x hx => hno x (List.mem_cons_of_mem l hx)),
                           fun hno => h3 (fun x hx => hno x (List.mem_cons_of_mem l hx))⟩
                  · split at h
                    · obtain ⟨h1, h2, h3⟩ := ih _ _ _ h
                      exact ⟨fun hno => h1 (fun x hx => hno x (List.mem_cons_of_mem l hx)),
                             fun hno => h2 (fun x hx => hno x (List.mem_cons_of_mem l hx)),
                             fun hno => h3 (fun x hx => hno x (List.mem_cons_of_mem l hx))⟩
                    · split at h
                      · split at h
                        · obtain ⟨h1, h2, h3⟩ := ih _ _ _ h
                          exact ⟨fun hno => h1 (fun x hx => hno x (List.mem_cons_of_mem l hx)),
                                 fun hno => h2 (fun x hx => hno x (List.mem_cons_of_mem l hx)),
                                 fun hno => h3 (fun x hx => hno x (List.mem_cons_of_mem l hx))⟩
                        · exact absurd h (by simp)
                      · obtain ⟨h1, h2, h3⟩ := ih _ _ _ h
                        exact ⟨fun hno => h1 (fun x hx => hno x (List.mem_cons_of_mem l hx)),
                               fun hno => h2 (fun x hx => hno x (List.mem_cons_of_mem l hx)),
                               fun hno => h3 (fun x hx => hno x (List.mem_cons_of_mem l hx))⟩

/-- Every YAML-layer decode error of `ParseNote` is an unparsable-scalar
error: a timestamp that fails to parse, or a priority integer that
fails to parse. There is no missing-required-key error. -/
theorem parseNote_yaml_error_classified (fp s e : List Char)
    (h : parseNote fp s = .err (.yamlError e)) : e = timeErrMsg ∨ e = intErrMsg := by
  cases hpre : opener.isPrefixOf s with
  | false =>
      rw [parseNote_no_front_matter hpre] at h
      exact absurd h (by simp)
  | true =>
      cases hsp : splitFirst delim s with
      | none =>
          rw [parseNote_eq_of_single hpre (splitOn_eq_single hsp)] at h
          exact absurd h (by simp)
      | some p =>
          obtain ⟨b, a⟩ := p
          obtain ⟨p1, prest, hps⟩ :=
            List.exists_cons_of_ne_nil (splitOn_ne_nil delim a)
          have hsplitOn : splitOn delim s = b :: p1 :: prest := by
            rw [splitOn_cons delim_ne_nil hsp, hps]
          rw [parseNote_eq_of_split hpre hsplitOn] at h
          by_cases hlen : b.length < 4
          · unfold parseBody at h
            rw [if_pos hlen] at h
            exact absurd h (by simp)
          · cases hm : parseMetadata (b.drop 4) with
            | error msg =>
                rw [parseBody_error hlen hm] at h
                have hme : msg = e := by simpa using h
                subst hme
                unfold parseMetadata at hm
                exact parseMetaLines_error_classified _ _ _ _ hm
            | ok md =>
                rw [parseBody_ok hlen hm] at h
                exact absurd h (by simp)

/-! ## Claim theorems -/

/-- C1 (counterexample): the round-trip law as stated fails on a note
whose content has a trailing newline; the decoder's `strings.TrimSpace`
returns the body trimmed, so the decoded content differs from the
original content. -/
theorem C1_counterexample :
    parseNote [] (toFileContent exNow exNoteTrail).2 = .ok exDecodedTrail ∧
      exDecodedTrail.content ≠ exNoteTrail.content := by
  constructor
  · decide
  · decide

/-- C1 (amended): for a note with plain-scalar title, tags, author and
status, valid timestamps, and content already whitespace-trimmed,
decoding the encoding yields exactly the note with `modified` refreshed
to the encode time: title, tags, content, author, status, priority and
`created` are preserved, and `modified` equals the encode-time clock. -/
theorem C1_round_trip (fp : List Char) (now : Time) (n : Note)
    (ht : PlainScalar n.metadata.title)
    (htags : ∀ t ∈ n.metadata.tags, PlainScalar t)
    (ha : PlainOpt n.metadata.author) (hs : PlainOpt n.metadata.status)
    (hc : n.metadata.created.Valid) (hnow : now.Valid)
    (hcont : trimSpace n.content = n.content) :
    parseNote fp (toFileContent now n).2 =
      .ok { metadata := { n.metadata with modified := now },
            content := n.content, filePath := fp } :=
  parseNote_toFileContent fp now n ht htags ha hs hc hnow hcont

/-- C1 (witness): the round trip at a concrete fully-populated note. -/
theorem C1_round_trip_witness :
    parseNote [] (toFileContent exNow exNoteFull).2 =
      .ok { metadata := { exNoteFull.metadata with modified := exNow },
            content := exNoteFull.content, filePath := [] } :=
  C1_round_trip [] exNow exNoteFull (by decide) (by decide) (by decide)
    (by decide) (by decide) (by decide) (by decide)

/-- C2 (counterexample): searching a non-empty collection with the
empty query does not return the empty result — `strings.Contains` with
an empty substring is always true, so every note matches. -/
theorem C2_counterexample : ¬ (searchNotes [exNoteAlpha] [] = []) := by decide

/-- C2 (amended): the empty query matches every note; `SearchNotes`
with the empty string returns the whole collection. -/
theorem C2_empty_query_matches_all (notes : List Note) :
    searchNotes notes [] = notes := by
  unfold searchNotes
  rw [show toLowerStr [] = [] from rfl]
  apply List.filter_eq_self.mpr
  intro n _
  unfold noteMatches
  rw [containsStr_nil]
  rfl

/-- C3 (counterexample): a file whose front matter lacks the required
`created` and `modified` keys decodes successfully, with the missing
timestamps silently defaulted to Go's zero time — no `InvalidMetadata`
error is produced. -/
theorem C3_counterexample :
    parseNote [] exMissingKeysText = .ok exMissingKeysNote ∧
      exMissingKeysNote.metadata.created = zeroTime := by
  constructor
  · decide
  · decide

/-- C3 (amended): missing required keys (`title`, `created`,
`modified`) never fail decoding — for every input, a YAML-layer decode
error of `ParseNote` is an unparsable-scalar error (an unparsable
`created`/`modified` timestamp or `priority` integer), reported as a
generic message that names no key; and for every metadata block
accepted by the YAML layer, whichever of the `title`/`created`/
`modified` keys is absent is silently defaulted to its Go zero value
(empty title, zero timestamp) in the returned metadata. Concretely, a
front matter with only an `author` key decodes successfully with all
three required fields defaulted, while an unparsable `created` value
fails with the generic timestamp error. -/
theorem C3_amended_defaults :
    (∀ (fp s e : List Char),
      parseNote fp s = .err (.yamlError e) → e = timeErrMsg ∨ e = intErrMsg) ∧
    (∀ (block : List Char) (md : Metadata), parseMetadata block = .ok md →
      ((∀ l ∈ splitOn ['\n'] block, leadsWith ("title: ".toList) l = false) →
        md.title = []) ∧
      ((∀ l ∈ splitOn ['\n'] block, leadsWith ("created: ".toList) l = false) →
        md.created = zeroTime) ∧
      ((∀ l ∈ splitOn ['\n'] block, leadsWith ("modified: ".toList) l = false) →
        md.modified = zeroTime)) ∧
    parseNote [] exNoRequiredText = .ok exNoRequiredNote ∧
    parseNote [] exBadTimeText = .err (.yamlError timeErrMsg) := by
  refine ⟨parseNote_yaml_error_classified, ?_, by decide, by decide⟩
  intro block md h
  unfold parseMetadata at h
  exact parseMetaLines_absent_preserved _ _ _ _ h

/-- C3 (witness): the error classification applied at the concrete
unparsable-timestamp input, and the silent-defaulting conjunct applied
at the concrete author-only metadata block. -/
theorem C3_amended_defaults_witness :
    (timeErrMsg = timeErrMsg ∨ timeErrMsg = intErrMsg) ∧
      exNoRequiredNote.metadata.created = zeroTime :=
  ⟨C3_amended_defaults.1 [] exBadTimeText timeErrMsg (by decide),
   (C3_amended_defaults.2.1 ("author: bob".toList) exNoRequiredNote.metadata
      rfl).2.1 (by decide)⟩

/-- C4 (counterexample): encoding a note with an empty tags sequence
produces output that contains no `tags` key at all (no explicit `[]`
token): the `omitempty` struct tag drops the field. -/
theorem C4_counterexample :
    containsStr (toFileContent exNow exNoteNoTags).2 ("tags".toList) = false := by
  decide

/-- C4 (amended): with empty tags the serialized metadata block has no
line starting with `tags`; with non-empty tags the block contains the
`tags:` key line and one block-sequence item line per tag (a block
sequence, not an inline empty-list token). -/
theorem C4_amended_omitempty :
    (∀ md : Metadata, md.tags = [] →
      ∀ l ∈ metaLines md, ("tags".toList).isPrefixOf l = false) ∧
    (∀ md : Metadata, md.tags ≠ [] →
      tagsKeyLine ∈ metaLines md ∧ ∀ t ∈ md.tags, itemLine t ∈ metaLines md) := by
  constructor
  · intro md htag l hl
    unfold metaLines at hl
    rw [htag] at hl
    simp only [List.isEmpty_nil, if_true, List.nil_append] at hl
    rcases List.mem_cons.mp hl with h | hl
    · subst h; rfl
    rcases List.mem_cons.mp hl with h | hl
    · subst h; rfl
    rcases List.mem_cons.mp hl with h | hl
    · subst h; rfl
    rcases List.mem_append.mp hl with hl | hl
    · rcases List.mem_append.mp hl with hl | hl
      · by_cases hau : md.author.isEmpty
        · rw [if_pos hau] at hl; simp at hl
        · rw [if_neg hau] at hl
          simp only [List.mem_singleton] at hl
          subst hl; rfl
      · by_cases hst : md.status.isEmpty
        · rw [if_pos hst] at hl; simp at hl
        · rw [if_neg hst] at hl
          simp only [List.mem_singleton] at hl
          subst hl; rfl
    · by_cases hp : md.priority == 0
      · rw [if_pos hp] at hl; simp at hl
      · rw [if_neg hp] at hl
        simp only [List.mem_singleton] at hl
        subst hl; rfl
  · intro md h
    have hne : ¬ md.tags.isEmpty := by simpa [List.isEmpty_iff] using h
    constructor
    · unfold metaLines
      rw [if_neg hne]
      apply List.mem_cons_of_mem
      apply List.mem_cons_of_mem
      apply List.mem_cons_of_mem
      apply List.mem_append_left
      apply List.mem_append_left
      apply List.mem_append_left
      exact List.mem_cons_self _ _
    · intro t ht
      unfold metaLines
      rw [if_neg hne]
      apply List.mem_cons_of_mem
      apply List.mem_cons_of_mem
      apply List.mem_cons_of_mem
      apply List.mem_append_left
      apply List.mem_append_left
      apply List.mem_append_left
      exact List.mem_cons_of_mem _ (List.mem_map_of_mem itemLine ht)

/-- C4 (witness): the no-tags-line fact at a concrete empty-tags note,
and the tags-key-present fact at a concrete tagged note. -/
theorem C4_amended_omitempty_witness :
    ("tags".toList).isPrefixOf (titleLine ("n".toList)) = false ∧
      tagsKeyLine ∈ metaLines exNoteFull.metadata :=
  ⟨C4_amended_omitempty.1 exNoteNoTags.metadata (by decide)
      (titleLine ("n".toList)) (by decide),
   (C4_amended_omitempty.2 exNoteFull.metadata (by decide)).1⟩

/-- C5: an input that does not begin with `"---\n"` is rejected with
the opening-delimiter error, and an input that begins with it but
contains no `"\n---\n"` occurrence is rejected with the
missing-delimiter error (both are the spec's `MalformedFrontMatter`
class); in these cases the decoder neither panics nor returns a note. -/
theorem C5_malformed_rejected :
    (∀ fp s : List Char, opener.isPrefixOf s = false →
      parseNote fp s = .err .notFrontMatter) ∧
    (∀ fp s : List Char, opener.isPrefixOf s = true → containsStr s delim = false →
      parseNote fp s = .err .missingDelimiter) :=
  ⟨fun _ _ h => parseNote_no_front_matter h,
   fun _ _ h1 h2 => parseNote_no_delim h1 h2⟩

/-- C5 (witness): both rejection classes at concrete inputs. -/
theorem C5_malformed_rejected_witness :
    parseNote [] ("xyz".toList) = .err .notFrontMatter ∧
      parseNote [] ("---\nabc".toList) = .err .missingDelimiter :=
  ⟨C5_malformed_rejected.1 [] ("xyz".toList) (by decide),
   C5_malformed_rejected.2 [] ("---\nabc".toList) (by decide) (by decide)⟩

/-- C6: tag filtering is case-insensitive exact matching — filtering
for `Work` and for `work` give identical results on every collection, a
note tagged only `workshop` is excluded from a filter for `work` (no
substring matching), and the output is a sublist of the input, so input
order is preserved. -/
theorem C6_filter_by_tag :
    (∀ notes : List Note,
      filterNotesByTag notes ("Work".toList) = filterNotesByTag notes ("work".toList)) ∧
    filterNotesByTag [exNoteWorkshop] ("work".toList) = [] ∧
    (∀ (notes : List Note) (tag : List Char),
      (filterNotesByTag notes tag).Sublist notes) := by
  refine ⟨?_, by decide, ?_⟩
  · intro notes
    unfold filterNotesByTag
    rw [show toLowerStr ("Work".toList) = toLowerStr ("work".toList) from by decide]
  · intro notes tag
    exact List.filter_sublist _

/-- C7 (counterexample): statistics over the empty collection print
only `No notes found.`; no `Total notes: 0` line is reported, contrary
to the claim's required output. -/
theorem C7_counterexample :
    displayStats [] = ["No notes found.".toList] ∧
      ¬ (("Total notes: 0".toList) ∈ displayStats []) := by
  constructor
  · decide
  · decide

/-- C7 (amended): on the empty collection the statistics function
returns after printing only the no-data line `No notes found.`; totals,
averages and extrema are computed only in the non-empty branch, so no
division by zero occurs. -/
theorem C7_amended_empty_stats : displayStats [] = ["No notes found.".toList] := by
  decide

/-- C8: the implemented decode — splitting on every `"\n---\n"`
occurrence and re-joining `parts[1:]` with the same separator — agrees
with the specified decode that splits at the first occurrence only, on
every input (in particular on every accepted input the metadata block
and the body, with any embedded `---` lines reconstructed, coincide). -/
theorem C8_split_refinement (fp s : List Char) :
    parseNote fp s = parseNoteSpec fp s :=
  parseNote_eq_parseNoteSpec fp s

/-- C9 (counterexample): decoding performs no timestamp validation — a
file whose `modified` precedes its `created` decodes successfully into
a note with `modified < created`, violating the claimed invariant for
decoded notes. -/
theorem C9_counterexample :
    parseNote [] exBadOrderText = .ok exBadOrderNote ∧
      timeLe exBadOrderNote.metadata.created exBadOrderNote.metadata.modified = false := by
  constructor
  · decide
  · decide

/-- C9 (amended): a newly constructed note has `modified = created`;
`UpdateContent`, `UpdateTags` and `ToFileContent` leave `created`
unchanged and set `modified` to the sampled current time, so the
invariant `modified ≥ created` is maintained whenever the clock reads
at or after `created`; decoded notes, however, are not validated (see
the counterexample). -/
theorem C9_amended_timestamps :
    (∀ (title content : List Char) (tags : List (List Char)) (now : Time),
      (noteNew title content tags now).metadata.modified =
        (noteNew title content tags now).metadata.created) ∧
    (∀ (n : Note) (content : List Char) (now : Time),
      (updateContent n content now).metadata.created = n.metadata.created ∧
      (updateContent n content now).metadata.modified = now) ∧
    (∀ (n : Note) (tags : List (List Char)) (now : Time),
      (updateTags n tags now).metadata.created = n.metadata.created ∧
      (updateTags n tags now).metadata.modified = now) ∧
    (∀ (now : Time) (n : Note),
      ((toFileContent now n).1).metadata.created = n.metadata.created ∧
      ((toFileContent now n).1).metadata.modified = now) ∧
    (∀ (n : Note) (content : List Char) (now : Time),
      timeLe n.metadata.created now = true →
      timeLe (updateContent n content now).metadata.created
        (updateContent n content now).metadata.modified = true) :=
  ⟨fun _ _ _ _ => rfl,
   fun _ _ _ => ⟨rfl, rfl⟩,
   fun _ _ _ => ⟨rfl, rfl⟩,
   fun _ _ => ⟨rfl, rfl⟩,
   fun _ _ _ h => h⟩

/-- C9 (witness): the invariant-preservation conjunct at a concrete
note and clock value. -/
theorem C9_amended_timestamps_witness :
    timeLe (updateContent exNoteAlpha ("z".toList) exNow).metadata.created
      (updateContent exNoteAlpha ("z".toList) exNow).metadata.modified = true :=
  C9_amended_timestamps.2.2.2.2 exNoteAlpha ("z".toList) exNow (by decide)

/-- C10: the decoder accepts an input only if the full four-character
closing sequence `"\n---\n"` occurs in it, so a file whose closing
`---` line is not followed by a newline (for instance one that ends
exactly with `"\n---"`) is rejected as malformed. -/
theorem C10_requires_trailing_newline :
    (∀ (fp s : List Char) (n : Note),
      parseNote fp s = .ok n → containsStr s delim = true) ∧
    parseNote [] exNoTrailNlText = .err .missingDelimiter :=
  ⟨fun _ _ _ h => parseNote_ok_contains h, by decide⟩

/-- C10 (witness): a concrete accepted input indeed contains the full
delimiter sequence. -/
theorem C10_requires_trailing_newline_witness :
    containsStr exGoodText delim = true :=
  C10_requires_trailing_newline.1 [] exGoodText exGoodNote (by decide)

end Memo
